import Mathlib

/-!
Verification of the PCM audio pipeline in `src/frontend/src/utils/audio.js`
(`AudioManager`): byte alignment and decoding (`playPCM`), the resampling
playback callback (`playerProcessor.onaudioprocess`), the capture
downsampler (`_downsampleBuffer`) and the 16-bit PCM encoder
(`_floatTo16BitPCM`), plus the `stopPlayback` lifecycle method.

Samples are embedded as exact rationals (the JS code computes with
doubles; all claims under study are count/coverage/bound claims or exact
small-rational computations), byte streams as lists of naturals, and the
JS typed-array state as explicit Lean structures.  Loops become
fuel-indexed structural recursions; the playback loop's fuel is exactly
the source's 5000-iteration guard, so a tripped guard in the model
corresponds precisely to the `loopGuard > 5000` break in the source.
-/

/-- JS `Math.round(a / b)` for nonnegative `a / b` (round half up):
`⌊a/b + 1/2⌋ = (2a + b) / (2b)` in natural division. -/
def roundDiv (a b : ℕ) : ℕ := (2 * a + b) / (2 * b)

/-- JS `ToIntegerOrInfinity` truncation (toward zero), as applied by
`DataView.setInt16` to its value argument. -/
def jsTrunc (q : ℚ) : ℤ := if q < 0 then ⌈q⌉ else ⌊q⌋

/-- The 16-bit two's complement wrap applied by `setInt16`. -/
def toUint16 (v : ℤ) : ℕ := (v % 65536).toNat

/-- The two bytes written by `view.setInt16(_, v, true)` (little-endian:
low byte first). -/
def int16Bytes (v : ℤ) : List ℕ := [toUint16 v % 256, toUint16 v / 256]

/-- Reading one element of an `Int16Array` laid over two consecutive
bytes (little-endian, signed). -/
def int16OfBytes (b0 b1 : ℕ) : ℤ :=
  let u := b0 % 256 + 256 * (b1 % 256)
  if u < 32768 then (u : ℤ) else (u : ℤ) - 65536

/-- `playPCM` step 3: decode one 16-bit sample and normalize,
`float32Array[i] = int16Array[i] / 32768.0`. -/
def sampleOfBytes (b0 b1 : ℕ) : ℚ := (int16OfBytes b0 b1 : ℚ) / 32768

/-- `playPCM` step 3 over a whole (even-length) chunk: the `Int16Array`
view of the bytes, each divided by 32768. A trailing unpaired byte is
never produced by the aligner; the catch-all arm mirrors that an
`Int16Array` view only covers whole 2-byte elements. -/
def decodeChunk : List ℕ → List ℚ
  | b0 :: b1 :: rest => sampleOfBytes b0 b1 :: decodeChunk rest
  | _ => []

/-- `_floatTo16BitPCM` per-sample arithmetic:
`s = Math.max(-1, Math.min(1, x)); s = s < 0 ? s * 0x8000 : s * 0x7FFF`. -/
def clampScale (x : ℚ) : ℚ :=
  let s := max (-1) (min 1 x)
  if s < 0 then s * 32768 else s * 32767

/-- The 16-bit integer actually stored for sample `x` by
`_floatTo16BitPCM` (clamp, asymmetric scale, truncate). -/
def encodeSampleInt (x : ℚ) : ℤ := jsTrunc (clampScale x)

/-- `_floatTo16BitPCM`: the byte stream produced by the encoder loop,
two little-endian bytes per input sample. -/
def floatTo16BitPCM : List ℚ → List ℕ
  | [] => []
  | x :: rest => int16Bytes (encodeSampleInt x) ++ floatTo16BitPCM rest

/-- Encoding one sample and decoding it back through the playback
decoder (`int16 / 32768.0`), via the actual wire bytes. -/
def roundTripSample (x : ℚ) : ℚ :=
  sampleOfBytes ((int16Bytes (encodeSampleInt x)).getD 0 0)
    ((int16Bytes (encodeSampleInt x)).getD 1 0)

/-- The mutable fields of an `AudioManager` instance used by the
playback pipeline (`audioContext` existence/running state, the
`ScriptProcessorNode` connection, and the queue/leftover buffers). -/
structure AMState where
  ctxExists : Bool
  ctxRunning : Bool
  isPlaying : Bool
  playerConnected : Bool
  audioQueue : List (List ℚ)
  resampleLeftover : Option (List ℚ)
  byteLeftover : Option (List ℕ)

/-- A freshly constructed `AudioManager` (constructor field values). -/
def initState : AMState :=
  { ctxExists := false, ctxRunning := false, isPlaying := false,
    playerConnected := false, audioQueue := [],
    resampleLeftover := none, byteLeftover := none }

/-- `playPCM` step 2 (byte-stream realignment): prepend the carried
byte, and if the combined length is odd split off the last byte as the
new carry; returns the even-length part handed to the decoder and the
new carry. -/
def alignChunk (leftover : Option (List ℕ)) (data : List ℕ) :
    List ℕ × Option (List ℕ) :=
  let chunk := match leftover with
    | some l => l ++ data
    | none => data
  if chunk.length % 2 ≠ 0 then
    (chunk.take (chunk.length - 1), some (chunk.drop (chunk.length - 1)))
  else
    (chunk, none)

/-- `playPCM`: resume the context, realign bytes, decode the even part,
push onto the queue (unless empty), and start streaming playback if not
already playing. -/
def playPCM (s : AMState) (data : List ℕ) : AMState :=
  let s1 := { s with ctxExists := true, ctxRunning := true }
  let aligned := alignChunk s1.byteLeftover data
  if aligned.1.length = 0 then { s1 with byteLeftover := aligned.2 }
  else
    let s2 := { s1 with byteLeftover := aligned.2,
                        audioQueue := s1.audioQueue ++ [decodeChunk aligned.1] }
    if s2.isPlaying then s2
    else { s2 with isPlaying := true, playerConnected := true }

/-- Delivering a sequence of inbound chunks to `playPCM`. -/
def feedChunks (s : AMState) (chunks : List (List ℕ)) : AMState :=
  chunks.foldl playPCM s

/-- Total number of decoded samples sitting in the playback queue. -/
def totalQueueSamples (s : AMState) : ℕ :=
  (s.audioQueue.map List.length).sum

/-- Length of an optional byte buffer (0 when null). -/
def optLen : Option (List ℕ) → ℕ
  | none => 0
  | some l => l.length

/-- Length of the byte carry-over (0 when null). -/
def byteLeftoverLen (s : AMState) : ℕ := optLen s.byteLeftover

/-- `stopPlayback`: disconnect the processor, reset the playing flag,
clear the queue and both leftovers, and suspend the context if it is
running. -/
def stopPlayback (s : AMState) : AMState :=
  { s with playerConnected := false,
           isPlaying := false,
           audioQueue := [],
           resampleLeftover := none,
           byteLeftover := none,
           ctxRunning := if s.ctxExists && s.ctxRunning then false
                         else s.ctxRunning }

/-- The `(!this.resampleLeftover || this.resampleLeftover.length === 0)`
test of the playback callback. -/
def leftoverEmpty : Option (List ℚ) → Bool
  | none => true
  | some l => l.isEmpty

/-- Zero-filling `outputData` from position `start` to the end
(the callback's silence-fill loops). -/
def fillZeros (out : List ℚ) (start : ℕ) : List ℚ :=
  out.take start ++ List.replicate (out.length - start) 0

/-- One linearly interpolated output sample of the playback callback:
`inputIdx = i * ratio`, floor/ceil neighbors with the ceil clamped to
the last valid index, blended by the fractional part. -/
def interpSample (l : List ℚ) (ratio : ℚ) (i : ℕ) : ℚ :=
  let inputIdx : ℚ := (i : ℚ) * ratio
  let idxFloor : ℕ := (⌊inputIdx⌋).toNat
  let idxCeil : ℕ := min (idxFloor + 1) (l.length - 1)
  let alpha : ℚ := inputIdx - (idxFloor : ℚ)
  l.getD idxFloor 0 * (1 - alpha) + l.getD idxCeil 0 * alpha

/-- The callback's inner `for` loop: write `pc` interpolated samples
into `out` starting at `start`. -/
def interpWrite (l : List ℚ) (ratio : ℚ) (start : ℕ) (out : List ℚ) :
    ℕ → List ℚ
  | 0 => out
  | k + 1 => (interpWrite l ratio start out k).set (start + k) (interpSample l ratio k)

/-- Step 1 of a playback loop iteration: if the leftover is empty pop
the next queued chunk (`none` = queue also empty, return with silence),
otherwise keep working on the leftover. -/
def refillStep (leftover : Option (List ℚ)) (q : List (List ℚ)) :
    Option (List ℚ × List (List ℚ)) :=
  if leftoverEmpty leftover then
    match q with
    | [] => none
    | c :: rest => some (c, rest)
  else some (leftover.getD [], q)

/-- Result of one `onaudioprocess` invocation: the output block, the
updated queue and leftover, whether the defensive loop guard fired, and
the value of the loop's `outputIndex` variable when the callback
returned — the number of leading output samples produced from input
data by interpolation; everything at or after it was written as
silence (or left as the host's zero-initialized buffer). -/
structure CallbackResult where
  output : List ℚ
  queue : List (List ℚ)
  leftover : Option (List ℚ)
  guardTripped : Bool
  produced : ℕ

/-- The playback callback's `while (outputIndex < outputLength)` loop.
`fuel` is the remaining allowance of the source's `loopGuard` counter
(initially 5000); exhausting it with output still missing is exactly the
`loopGuard > 5000` break. Each iteration: refill the leftover from the
queue, compute `outputCanGenerate = floor(available / ratio)`; if zero,
concatenate the next chunk (or zero-fill and clear the leftover when the
queue is empty); otherwise interpolate
`min(remaining, outputCanGenerate)` samples and consume
`floor(processed * ratio)` input samples from the leftover's front. -/
def fillLoop (ratio : ℚ) (N : ℕ) :
    ℕ → List (List ℚ) → Option (List ℚ) → List ℚ → ℕ → CallbackResult
  | 0, q, leftover, out, outIdx =>
      if outIdx < N then ⟨out, q, leftover, true, outIdx⟩
      else ⟨out, q, leftover, false, outIdx⟩
  | fuel + 1, q, leftover, out, outIdx =>
      if outIdx < N then
        match refillStep leftover q with
        | none => ⟨fillZeros out outIdx, q, leftover, false, outIdx⟩
        | some (l, q') =>
          let ocg : ℤ := ⌊(l.length : ℚ) / ratio⌋
          if ocg ≤ 0 then
            match q' with
            | [] => ⟨fillZeros out outIdx, q', none, false, outIdx⟩
            | next :: rest =>
                fillLoop ratio N fuel rest (some (l ++ next)) out outIdx
          else
            let pc := min (N - outIdx) ocg.toNat
            let consumed := (⌊(pc : ℚ) * ratio⌋).toNat
            let leftover' := if l.length ≤ consumed then none
                             else some (l.drop consumed)
            fillLoop ratio N fuel q' leftover'
              (interpWrite l ratio outIdx out pc) (outIdx + pc)
      else ⟨out, q, leftover, false, outIdx⟩

/-- One invocation of `playerProcessor.onaudioprocess` on an `N`-sample
device block (the host hands the callback a zero-initialized output
buffer): the idle fast path fills pure silence, otherwise the fill loop
runs with `ratio = inputSampleRate / audioContext.sampleRate`. -/
def onAudioProcess (inputRate ctxRate N : ℕ) (q : List (List ℚ))
    (leftover : Option (List ℚ)) : CallbackResult :=
  if leftoverEmpty leftover && q.isEmpty then
    ⟨List.replicate N 0, q, leftover, false, 0⟩
  else
    fillLoop ((inputRate : ℚ) / (ctxRate : ℚ)) N 5000 q leftover
      (List.replicate N 0) 0

/-- `_downsampleBuffer`'s target length
`Math.round(buffer.length / (sampleRate / outSampleRate))`. -/
def dsNewLength (len sr tr : ℕ) : ℕ := roundDiv (len * tr) sr

/-- The downsampler's span boundary after `j` output samples:
`Math.round(j * sampleRateRatio)` (the carried `offsetBuffer`). -/
def dsBoundary (sr tr j : ℕ) : ℕ := roundDiv (j * sr) tr

/-- One output sample of the downsampler: the mean of the input span
`[lo, hi)` read through the loop bound `i < nextOffsetBuffer && i <
buffer.length` (so only in-bounds elements are read), or 0 when the span
holds no samples (`count > 0 ? accum / count : 0`). -/
def spanMean (b : List ℚ) (lo hi : ℕ) : ℚ :=
  let s := (b.drop lo).take (hi - lo)
  if s.length = 0 then 0 else s.sum / (s.length : ℚ)

/-- The downsampler's `while (offsetResult < result.length)` loop,
carrying `offsetResult = j` and `offsetBuffer = off`;
`fuel = result.length - offsetResult`. -/
def dsGo (b : List ℚ) (sr tr : ℕ) : ℕ → ℕ → ℕ → List ℚ
  | 0, _, _ => []
  | fuel + 1, j, off =>
      spanMean b off (min (roundDiv ((j + 1) * sr) tr) b.length) ::
        dsGo b sr tr fuel (j + 1) (roundDiv ((j + 1) * sr) tr)

/-- `_downsampleBuffer`: pass through on equal rates, pass through on
unsupported upsampling, otherwise run the averaging loop. -/
def downsampleBuffer (b : List ℚ) (sr tr : ℕ) : List ℚ :=
  if tr = sr then b
  else if sr < tr then b
  else dsGo b sr tr (dsNewLength b.length sr tr) 0 0

/-- The per-output-sample input spans of the downsampler, exactly as
the loop walks them: lower bound the carried `offsetBuffer`, upper bound
`nextOffsetBuffer` clipped by `buffer.length`. -/
def dsSpans (len sr tr : ℕ) : ℕ → ℕ → ℕ → List (ℕ × ℕ)
  | 0, _, _ => []
  | fuel + 1, j, off =>
      (off, min (roundDiv ((j + 1) * sr) tr) len) ::
        dsSpans len sr tr fuel (j + 1) (roundDiv ((j + 1) * sr) tr)

/-- How many of the downsampler's spans contain input index `i`. -/
def coveredCount (len sr tr i : ℕ) : ℕ :=
  (dsSpans len sr tr (dsNewLength len sr tr) 0 0).countP
    (fun p => decide (p.1 ≤ i ∧ i < p.2))

/-! ### Lemmas about the byte aligner and decoder -/

theorem decodeChunk_length : ∀ l : List ℕ, (decodeChunk l).length = l.length / 2
  | [] => rfl
  | [_] => by simp [decodeChunk]
  | b0 :: b1 :: rest => by
      simp only [decodeChunk, List.length_cons, decodeChunk_length rest]
      omega

theorem alignChunk_even (lo : Option (List ℕ)) (d : List ℕ) :
    (alignChunk lo d).1.length % 2 = 0 := by
  cases lo with
  | none =>
      simp only [alignChunk]
      split_ifs with h
      · simp only [List.length_take]; omega
      · dsimp only; omega
  | some l =>
      simp only [alignChunk]
      split_ifs with h
      · simp only [List.length_take, List.length_append] at h ⊢; omega
      · simp only [List.length_append] at h ⊢; omega

theorem alignChunk_carry (lo : Option (List ℕ)) (d : List ℕ) :
    (alignChunk lo d).2 = none ∨
      ∃ c, (alignChunk lo d).2 = some c ∧ c.length = 1 := by
  cases lo with
  | none =>
      simp only [alignChunk]
      split_ifs with h
      · right
        refine ⟨_, rfl, ?_⟩
        simp only [List.length_drop]
        omega
      · left; rfl
  | some l =>
      simp only [alignChunk]
      split_ifs with h
      · right
        refine ⟨_, rfl, ?_⟩
        simp only [List.length_drop, List.length_append] at h ⊢
        omega
      · left; rfl

theorem alignChunk_total (lo : Option (List ℕ)) (d : List ℕ) :
    (alignChunk lo d).1.length + optLen (alignChunk lo d).2 =
      optLen lo + d.length := by
  cases lo with
  | none =>
      simp only [alignChunk]
      split_ifs with h
      · simp only [optLen, List.length_take, List.length_drop]; omega
      · simp only [optLen]; omega
  | some l =>
      simp only [alignChunk]
      split_ifs with h
      · simp only [optLen, List.length_take, List.length_drop,
          List.length_append] at h ⊢
        omega
      · simp only [optLen, List.length_append] at h ⊢; omega

theorem playPCM_queue (s : AMState) (c : List ℕ) :
    totalQueueSamples (playPCM s c) =
        totalQueueSamples s + (alignChunk s.byteLeftover c).1.length / 2 ∧
      (playPCM s c).byteLeftover = (alignChunk s.byteLeftover c).2 := by
  unfold playPCM
  dsimp only
  split_ifs with h1 h2 <;>
    simp_all [totalQueueSamples, decodeChunk_length]

theorem playPCM_carry_le (s : AMState) (c : List ℕ) :
    byteLeftoverLen (playPCM s c) ≤ 1 := by
  have h := alignChunk_carry s.byteLeftover c
  have hq := (playPCM_queue s c).2
  rw [byteLeftoverLen, hq]
  rcases h with h | ⟨w, hw, hlen⟩
  · rw [h]; simp [optLen]
  · rw [hw]; simp [optLen, hlen]

theorem feedChunks_invariant (chunks : List (List ℕ)) : ∀ s : AMState,
    2 * totalQueueSamples (feedChunks s chunks) +
        byteLeftoverLen (feedChunks s chunks) =
      2 * totalQueueSamples s + byteLeftoverLen s +
        (chunks.map List.length).sum := by
  induction chunks with
  | nil => intro s; simp [feedChunks]
  | cons c rest ih =>
      intro s
      have hstep := playPCM_queue s c
      have htot := alignChunk_total s.byteLeftover c
      have heven := alignChunk_even s.byteLeftover c
      have hrec := ih (playPCM s c)
      simp only [feedChunks, List.foldl_cons, List.map_cons, List.sum_cons] at *
      rw [hrec, hstep.1, byteLeftoverLen, hstep.2]
      rw [byteLeftoverLen] at *
      omega

theorem feedChunks_carry_le (chunks : List (List ℕ)) : ∀ s : AMState,
    byteLeftoverLen s ≤ 1 → byteLeftoverLen (feedChunks s chunks) ≤ 1 := by
  induction chunks with
  | nil => intro s hs; simpa [feedChunks] using hs
  | cons c rest ih =>
      intro s hs
      simp only [feedChunks, List.foldl_cons] at *
      exact ih (playPCM s c) (playPCM_carry_le s c)

/-- Claim C1: for any sequence of inbound chunks whose concatenated byte
length is even, the total number of decoded samples in the playback
queue after feeding them all to `playPCM` is exactly half the total byte
length; in particular a 3-byte chunk followed by a 5-byte chunk decodes
1 sample and then 3 more, 4 samples total from 8 bytes. -/
theorem c1_no_data_loss :
    (∀ chunks : List (List ℕ),
        (chunks.map List.length).sum % 2 = 0 →
        totalQueueSamples (feedChunks initState chunks) =
          (chunks.map List.length).sum / 2)
    ∧ totalQueueSamples (feedChunks initState [[1, 2, 3]]) = 1
    ∧ totalQueueSamples (feedChunks initState [[1, 2, 3], [4, 5, 6, 7, 8]]) = 4 := by
  refine ⟨?_, by decide, by decide⟩
  intro chunks heven
  have hinv := feedChunks_invariant chunks initState
  have hle := feedChunks_carry_le chunks initState (by decide)
  have h0 : totalQueueSamples initState = 0 := rfl
  have h1 : byteLeftoverLen initState = 0 := rfl
  rw [h0, h1] at hinv
  omega

theorem c1_no_data_loss_witness :
    (([[1, 2, 3], [4, 5, 6, 7, 8]] : List (List ℕ)).map List.length).sum % 2 = 0
    ∧ totalQueueSamples (feedChunks initState [[1, 2, 3], [4, 5, 6, 7, 8]]) = 4 := by
  refine ⟨by decide, ?_⟩
  have h := c1_no_data_loss.1 [[1, 2, 3], [4, 5, 6, 7, 8]] (by decide)
  simpa using h

/-- Claim C8: after any `playPCM` call the byte carry-over is either
null or exactly one byte long, whatever the starting state and chunk;
and the aligner hands the Int16 decoder only even-length byte
sequences. -/
theorem c8_alignment_invariant :
    (∀ (s : AMState) (c : List ℕ),
        (playPCM s c).byteLeftover = none ∨ byteLeftoverLen (playPCM s c) = 1)
    ∧ ∀ (lo : Option (List ℕ)) (d : List ℕ),
        (alignChunk lo d).1.length % 2 = 0 := by
  constructor
  · intro s c
    have h := alignChunk_carry s.byteLeftover c
    have hq := (playPCM_queue s c).2
    rcases h with h | ⟨w, hw, hlen⟩
    · left; rw [hq, h]
    · right; rw [byteLeftoverLen, hq, hw]; simpa [optLen] using hlen
  · exact alignChunk_even

/-- Claim C6: `stopPlayback` is total (never throws), clears the queue
and both leftover states, resets the playing flag and disconnects the
processor, and is idempotent: a second call (or a call when playback was
never started) leaves the state unchanged. -/
theorem c6_stop_idempotent : ∀ s : AMState,
    (stopPlayback s).audioQueue = []
    ∧ (stopPlayback s).resampleLeftover = none
    ∧ (stopPlayback s).byteLeftover = none
    ∧ (stopPlayback s).isPlaying = false
    ∧ (stopPlayback s).playerConnected = false
    ∧ stopPlayback (stopPlayback s) = stopPlayback s := by
  intro s
  refine ⟨rfl, rfl, rfl, rfl, rfl, ?_⟩
  obtain ⟨ce, cr, ip, pc, q, rl, bl⟩ := s
  cases ce <;> cases cr <;> rfl

/-! ### The 16-bit encoder and the decode round trip -/

theorem encodeSampleInt_range (x : ℚ) :
    -32768 ≤ encodeSampleInt x ∧ encodeSampleInt x ≤ 32767 := by
  unfold encodeSampleInt clampScale jsTrunc
  set s : ℚ := max (-1) (min 1 x) with hs
  have hs1 : -1 ≤ s := le_max_left _ _
  have hs2 : s ≤ 1 := max_le (by norm_num) (min_le_left _ _)
  by_cases hneg : s < 0
  · have hq : s * 32768 < 0 := mul_neg_of_neg_of_pos hneg (by norm_num)
    rw [if_pos hneg, if_pos hq]
    constructor
    · have h32 : (-32768 : ℚ) ≤ s * 32768 := by nlinarith
      have : ((-32768 : ℤ) : ℚ) = (-32768 : ℚ) := by norm_num
      calc (-32768 : ℤ) = ⌈((-32768 : ℤ) : ℚ)⌉ := (Int.ceil_intCast _).symm
        _ ≤ ⌈s * 32768⌉ := Int.ceil_le_ceil (by rw [this]; exact h32)
    · have hc : ⌈s * 32768⌉ ≤ ⌈(0 : ℚ)⌉ := Int.ceil_le_ceil hq.le
      rw [Int.ceil_zero] at hc
      omega
  · have hpos : 0 ≤ s := not_lt.mp hneg
    have hq : ¬ s * 32767 < 0 := not_lt.mpr (by positivity)
    rw [if_neg hneg, if_neg hq]
    constructor
    · have : (0 : ℤ) ≤ ⌊s * 32767⌋ := Int.floor_nonneg.mpr (by positivity)
      omega
    · have : s * 32767 ≤ 32767 := by nlinarith
      have hc : ((32767 : ℤ) : ℚ) = (32767 : ℚ) := by norm_num
      calc ⌊s * 32767⌋ ≤ ⌊((32767 : ℤ) : ℚ)⌋ :=
            Int.floor_le_floor (by rw [hc]; exact this)
        _ = 32767 := Int.floor_intCast _

theorem int16Bytes_decode (v : ℤ) (h1 : -32768 ≤ v) (h2 : v ≤ 32767) :
    int16OfBytes (toUint16 v % 256) (toUint16 v / 256) = v := by
  have hmod : (0 : ℤ) ≤ v % 65536 := Int.emod_nonneg v (by norm_num)
  have hcast : (toUint16 v : ℤ) = v % 65536 := by
    rw [toUint16, Int.toNat_of_nonneg hmod]
  unfold int16OfBytes
  dsimp only
  set u : ℕ := toUint16 v with hu
  have hsmall : u % 256 % 256 + 256 * (u / 256 % 256) = u % 256 + 256 * (u / 256) := by
    have hub : (u : ℤ) < 65536 := by
      rw [hcast]; exact Int.emod_lt_of_pos v (by norm_num)
    have hub' : u < 65536 := by exact_mod_cast hub
    omega
  split_ifs with hlt <;> omega

theorem floatTo16BitPCM_length : ∀ xs : List ℚ,
    (floatTo16BitPCM xs).length = 2 * xs.length
  | [] => rfl
  | x :: rest => by
      simp only [floatTo16BitPCM, int16Bytes, List.length_append,
        List.length_cons, List.length_nil, floatTo16BitPCM_length rest]
      omega

theorem floatTo16BitPCM_pair : ∀ (xs : List ℚ) (i : ℕ), i < xs.length →
    (floatTo16BitPCM xs).getD (2 * i) 0 = toUint16 (encodeSampleInt (xs.getD i 0)) % 256
    ∧ (floatTo16BitPCM xs).getD (2 * i + 1) 0 = toUint16 (encodeSampleInt (xs.getD i 0)) / 256
  | [], i, h => by simp at h
  | x :: rest, 0, _ => by
      simp [floatTo16BitPCM, int16Bytes]
  | x :: rest, i + 1, h => by
      have ih := floatTo16BitPCM_pair rest i (by simpa using h)
      have h2 : 2 * (i + 1) = 2 * i + 1 + 1 := by omega
      simp only [floatTo16BitPCM, int16Bytes, h2, List.cons_append,
        List.nil_append, List.getD_cons_succ, List.getD_cons_zero]
      exact ih

/-- Claim C7: `_floatTo16BitPCM` clamps each sample to [-1, 1], scales
negative values by 32768 and non-negative ones by 32767, truncates, and
writes each result as a little-endian signed 16-bit integer; -1.0
encodes to -32768 and 1.0 to 32767, and the output holds exactly two
bytes per input sample.  (Decoding the emitted byte pairs little-endian
recovers exactly the clamp-scale-truncate value.) -/
theorem c7_encode_spec : ∀ xs : List ℚ,
    (floatTo16BitPCM xs).length = 2 * xs.length
    ∧ (∀ i, i < xs.length →
        int16OfBytes ((floatTo16BitPCM xs).getD (2 * i) 0)
            ((floatTo16BitPCM xs).getD (2 * i + 1) 0) =
          encodeSampleInt (xs.getD i 0))
    ∧ encodeSampleInt (-1) = -32768
    ∧ encodeSampleInt 1 = 32767 := by
  intro xs
  have hm1 : encodeSampleInt (-1) = -32768 := by
    have hc : clampScale (-1) = -32768 := by unfold clampScale; norm_num
    rw [encodeSampleInt, hc, jsTrunc, if_pos (by norm_num : (-32768 : ℚ) < 0)]
    rw [show ((-32768 : ℚ)) = (((-32768 : ℤ) : ℚ)) by norm_num, Int.ceil_intCast]
  have hp1 : encodeSampleInt 1 = 32767 := by
    have hc : clampScale 1 = 32767 := by unfold clampScale; norm_num
    rw [encodeSampleInt, hc, jsTrunc, if_neg (by norm_num : ¬((32767 : ℚ) < 0))]
    rw [show ((32767 : ℚ)) = (((32767 : ℤ) : ℚ)) by norm_num, Int.floor_intCast]
  refine ⟨floatTo16BitPCM_length xs, ?_, hm1, hp1⟩
  intro i hi
  obtain ⟨h0, h1⟩ := floatTo16BitPCM_pair xs i hi
  rw [h0, h1]
  exact int16Bytes_decode _ (encodeSampleInt_range _).1 (encodeSampleInt_range _).2

theorem c7_encode_spec_witness :
    0 < ([(-1 : ℚ), 1]).length
    ∧ (floatTo16BitPCM [(-1 : ℚ), 1]).length = 4
    ∧ int16OfBytes ((floatTo16BitPCM [(-1 : ℚ), 1]).getD 0 0)
        ((floatTo16BitPCM [(-1 : ℚ), 1]).getD 1 0) = encodeSampleInt (-1) := by
  have h := c7_encode_spec [(-1 : ℚ), 1]
  have h2 := h.2.1 0 (by norm_num)
  exact ⟨by norm_num, by simpa using h.1, by simpa using h2⟩

/-- Claim C4 fails: encoding scales non-negative samples by 32767 but
decoding divides by 32768, so the round-trip error can exceed one
quantization step.  At `x = 65533/65536` the stored integer is 32765,
the decoded value is 32765/32768, and the error is 3/65536, strictly
more than 1/32768 = 2/65536. -/
theorem c4_roundtrip_counterexample :
    (-1 ≤ (65533 / 65536 : ℚ) ∧ (65533 / 65536 : ℚ) ≤ 1)
    ∧ 1 / 32768 < |roundTripSample (65533 / 65536 : ℚ) - 65533 / 65536| := by
  have henc : encodeSampleInt (65533 / 65536 : ℚ) = 32765 := by
    have hc : clampScale (65533 / 65536 : ℚ) = 2147319811 / 65536 := by
      unfold clampScale
      rw [min_eq_right (by norm_num), max_eq_right (by norm_num),
        if_neg (by norm_num)]
      norm_num
    rw [encodeSampleInt, hc, jsTrunc, if_neg (by norm_num)]
    rw [Int.floor_eq_iff]
    constructor <;> norm_num
  have hrt : roundTripSample (65533 / 65536 : ℚ) = 32765 / 32768 := by
    rw [roundTripSample, henc]
    simp only [int16Bytes, List.getD_cons_zero, List.getD_cons_succ]
    norm_num [toUint16, sampleOfBytes, int16OfBytes]
    rw [if_pos (by decide)]
  refine ⟨⟨by norm_num, by norm_num⟩, ?_⟩
  rw [hrt, show (32765 / 32768 : ℚ) - 65533 / 65536 = -(3 / 65536) by norm_num,
    abs_neg, abs_of_pos (by norm_num)]
  norm_num

/-- Claim C4, amended: the encode/decode round trip reproduces every
normalized sample to within two quantization steps, `|error| < 2/32768`
(the one-step bound holds for non-positive samples; positive samples can
err by up to just under 2/32768 because they are scaled by 32767 on
encode but divided by 32768 on decode). -/
theorem c4_roundtrip_amended : ∀ x : ℚ, -1 ≤ x → x ≤ 1 →
    |roundTripSample x - x| < 2 / 32768 := by
  intro x hx1 hx2
  have hrange := encodeSampleInt_range x
  have hdec := int16Bytes_decode (encodeSampleInt x) hrange.1 hrange.2
  have hrt : roundTripSample x = ((encodeSampleInt x : ℤ) : ℚ) / 32768 := by
    rw [roundTripSample]
    simp only [int16Bytes, List.getD_cons_zero, List.getD_cons_succ]
    rw [sampleOfBytes, hdec]
  rw [hrt]
  have hclamp : clampScale x = if x < 0 then x * 32768 else x * 32767 := by
    unfold clampScale
    rw [min_eq_right hx2, max_eq_right hx1]
  rw [encodeSampleInt, hclamp]
  by_cases hneg : x < 0
  · have hq : x * 32768 < 0 := mul_neg_of_neg_of_pos hneg (by norm_num)
    rw [if_pos hneg, jsTrunc, if_pos hq]
    have hc1 : x * 32768 ≤ ((⌈x * 32768⌉ : ℤ) : ℚ) := Int.le_ceil _
    have hc2 : ((⌈x * 32768⌉ : ℤ) : ℚ) < x * 32768 + 1 := Int.ceil_lt_add_one _
    rw [abs_lt]
    constructor <;> nlinarith
  · have hx0 : 0 ≤ x := not_lt.mp hneg
    have hq : ¬ x * 32767 < 0 := not_lt.mpr (mul_nonneg hx0 (by norm_num))
    rw [if_neg hneg, jsTrunc, if_neg hq]
    have hf1 : ((⌊x * 32767⌋ : ℤ) : ℚ) ≤ x * 32767 := Int.floor_le _
    have hf2 : x * 32767 < ((⌊x * 32767⌋ : ℤ) : ℚ) + 1 := Int.lt_floor_add_one _
    rw [abs_lt]
    constructor <;> nlinarith

theorem c4_roundtrip_witness :
    (-1 ≤ (1 / 2 : ℚ) ∧ (1 / 2 : ℚ) ≤ 1)
    ∧ |roundTripSample (1 / 2 : ℚ) - 1 / 2| < 2 / 32768 :=
  ⟨⟨by norm_num, by norm_num⟩,
    c4_roundtrip_amended (1 / 2) (by norm_num) (by norm_num)⟩

/-! ### The playback callback -/

theorem fillZeros_length (out : List ℚ) (start : ℕ) :
    (fillZeros out start).length = out.length := by
  simp only [fillZeros, List.length_append, List.length_take,
    List.length_replicate]
  omega

theorem interpWrite_length (l : List ℚ) (ratio : ℚ) (start : ℕ)
    (out : List ℚ) : ∀ k, (interpWrite l ratio start out k).length = out.length
  | 0 => rfl
  | k + 1 => by
      simp only [interpWrite, List.length_set,
        interpWrite_length l ratio start out k]

theorem fillLoop_output_length (ratio : ℚ) (N : ℕ) :
    ∀ (fuel : ℕ) (q : List (List ℚ)) (lo : Option (List ℚ))
      (out : List ℚ) (outIdx : ℕ),
      (fillLoop ratio N fuel q lo out outIdx).output.length = out.length := by
  intro fuel
  induction fuel with
  | zero =>
      intro q lo out outIdx
      rw [fillLoop]
      split_ifs <;> rfl
  | succ fuel ih =>
      intro q lo out outIdx
      rw [fillLoop]
      split_ifs with ho
      · cases hr : refillStep lo q with
        | none => simp [fillZeros_length]
        | some p =>
            obtain ⟨l, q'⟩ := p
            dsimp only
            split_ifs with hocg h2
            · cases q' with
              | nil => simp [fillZeros_length]
              | cons next rest => rw [ih]
            · rw [ih, interpWrite_length]
            · rw [ih, interpWrite_length]
      · rfl

theorem replicate_getD_zero : ∀ (n i : ℕ), (List.replicate n (0 : ℚ)).getD i 0 = 0
  | 0, _ => by simp
  | n + 1, 0 => by simp
  | n + 1, i + 1 => by
      rw [List.replicate_succ, List.getD_cons_succ]
      exact replicate_getD_zero n i

/-- Claim C5: when the playback queue is empty and the resample leftover
is empty or null, the callback takes the fast path: every one of the `N`
output samples is exactly 0, the queue and leftover are untouched, and
the loop guard is not involved. -/
theorem c5_idle_silence :
    ∀ (inputRate ctxRate N : ℕ) (q : List (List ℚ))
      (lo : Option (List ℚ)),
      q = [] → leftoverEmpty lo = true →
      (onAudioProcess inputRate ctxRate N q lo).output = List.replicate N 0
      ∧ (∀ i, i < N → (onAudioProcess inputRate ctxRate N q lo).output.getD i 0 = 0)
      ∧ (onAudioProcess inputRate ctxRate N q lo).queue = q
      ∧ (onAudioProcess inputRate ctxRate N q lo).leftover = lo
      ∧ (onAudioProcess inputRate ctxRate N q lo).guardTripped = false := by
  intro inputRate ctxRate N q lo hq hlo
  subst hq
  have hcond : (leftoverEmpty lo && ([] : List (List ℚ)).isEmpty) = true := by
    rw [hlo]; rfl
  rw [onAudioProcess]
  rw [if_pos hcond]
  exact ⟨rfl, fun i _ => replicate_getD_zero N i, rfl, rfl, rfl⟩

theorem c5_idle_silence_witness :
    ([] : List (List ℚ)) = [] ∧ leftoverEmpty none = true
    ∧ (onAudioProcess 32000 44100 4096 [] none).output = List.replicate 4096 0 := by
  refine ⟨rfl, rfl, ?_⟩
  exact (c5_idle_silence 32000 44100 4096 [] none rfl rfl).1

theorem refillStep_cases (lo : Option (List ℚ)) (q : List (List ℚ))
    (l : List ℚ) (q' : List (List ℚ)) (h : refillStep lo q = some (l, q')) :
    q' = q ∨ q = l :: q' := by
  rw [refillStep.eq_def] at h
  split_ifs at h with he
  · cases q with
    | nil => exact absurd h (by simp)
    | cons c rest =>
        right
        simp only [Option.some.injEq, Prod.mk.injEq] at h
        rw [h.1, h.2]
  · left
    simp only [Option.some.injEq, Prod.mk.injEq] at h
    rw [h.2]

theorem fillLoop_no_trip (ratio : ℚ) (N : ℕ) :
    ∀ (fuel : ℕ) (q : List (List ℚ)) (lo : Option (List ℚ))
      (out : List ℚ) (outIdx : ℕ),
      N - outIdx + q.length ≤ fuel →
      (fillLoop ratio N fuel q lo out outIdx).guardTripped = false := by
  intro fuel
  induction fuel with
  | zero =>
      intro q lo out outIdx hm
      rw [fillLoop]
      split_ifs with ho
      · omega
      · rfl
  | succ fuel ih =>
      intro q lo out outIdx hm
      rw [fillLoop]
      split_ifs with ho
      · cases hr : refillStep lo q with
        | none => rfl
        | some p =>
            obtain ⟨l, q'⟩ := p
            have hq' := refillStep_cases lo q l q' hr
            have hqlen : q'.length = q.length ∨ q.length = q'.length + 1 := by
              rcases hq' with h | h
              · left; rw [h]
              · right; rw [h]; rfl
            dsimp only
            split_ifs with hocg h2
            · cases q' with
              | nil => rfl
              | cons next rest =>
                  apply ih
                  simp only [List.length_cons] at hqlen
                  omega
            · have hpos : (0 : ℤ) < ⌊(l.length : ℚ) / ratio⌋ := lt_of_not_le hocg
              apply ih
              have hpc : 1 ≤ min (N - outIdx) (⌊(l.length : ℚ) / ratio⌋).toNat := by
                omega
              omega
            · have hpos : (0 : ℤ) < ⌊(l.length : ℚ) / ratio⌋ := lt_of_not_le hocg
              apply ih
              have hpc : 1 ≤ min (N - outIdx) (⌊(l.length : ℚ) / ratio⌋).toNat := by
                omega
              omega
      · rfl

/-- Claim C9, amended: the fill loop always terminates, and the guard
never fires when the block size plus the number of queued chunks is at
most 5000 (each iteration either produces at least one output sample or
consumes a queued chunk); with more than 5000 queued chunks and an
extreme rate ratio the guard can fire. -/
theorem c9_guard_amended :
    ∀ (inputRate ctxRate N : ℕ) (q : List (List ℚ))
      (lo : Option (List ℚ)),
      N + q.length ≤ 5000 →
      (onAudioProcess inputRate ctxRate N q lo).guardTripped = false := by
  intro inputRate ctxRate N q lo hm
  rw [onAudioProcess]
  split_ifs with h
  · rfl
  · exact fillLoop_no_trip _ N 5000 q lo _ 0 (by omega)

theorem c9_guard_amended_witness :
    4096 + ([[ (1 : ℚ) ]] : List (List ℚ)).length ≤ 5000
    ∧ (onAudioProcess 32000 48000 4096 [[(1 : ℚ)]] none).guardTripped = false := by
  refine ⟨by norm_num, ?_⟩
  exact c9_guard_amended 32000 48000 4096 [[(1 : ℚ)]] none (by norm_num)

theorem floor_small_div (n : ℕ) (h : n < 1000000) :
    ⌊(n : ℚ) / 1000000⌋ ≤ 0 := by
  have h1 : ((n : ℚ) / 1000000) < ((1 : ℤ) : ℚ) := by
    push_cast
    rw [div_lt_one (by norm_num)]
    exact_mod_cast h
  have h2 := Int.floor_lt.mpr h1
  omega

theorem fillLoop_trips :
    ∀ (fuel k : ℕ) (acc out : List ℚ) (outIdx : ℕ),
      outIdx < 4096 → acc ≠ [] → acc.length + fuel ≤ 1000000 → fuel ≤ k →
      (fillLoop 1000000 4096 fuel (List.replicate k ([0] : List ℚ))
          (some acc) out outIdx).guardTripped = true := by
  intro fuel
  induction fuel with
  | zero =>
      intro k acc out outIdx ho hacc hlen hk
      rw [fillLoop, if_pos ho]
  | succ fuel ih =>
      intro k acc out outIdx ho hacc hlen hk
      obtain ⟨k', rfl⟩ : ∃ k', k = k' + 1 := ⟨k - 1, by omega⟩
      have hne : leftoverEmpty (some acc) = false := by
        cases acc with
        | nil => exact absurd rfl hacc
        | cons a as => rfl
      have hrefill : refillStep (some acc) (List.replicate (k' + 1) [0]) =
          some (acc, List.replicate (k' + 1) [0]) := by
        rw [refillStep.eq_def, hne]
        rfl
      have hocg : ⌊(acc.length : ℚ) / 1000000⌋ ≤ 0 :=
        floor_small_div acc.length (by omega)
      rw [fillLoop, if_pos ho, hrefill]
      dsimp only
      rw [if_pos hocg, List.replicate_succ]
      have := ih k' (acc ++ [0]) out outIdx ho (by simp)
        (by simp only [List.length_append, List.length_cons, List.length_nil]; omega)
        (by omega)
      exact this

/-- Claim C9 fails as stated: the loop guard is not unreachable over all
queue/leftover states and positive ratios.  With source rate 32000000 Hz
against a 32 Hz device rate (ratio 10^6), a one-sample leftover and 5000
queued one-sample chunks, every iteration takes the concatenation branch
without producing output, so the 5000-iteration guard fires. -/
theorem c9_guard_counterexample :
    (onAudioProcess 32000000 32 4096 (List.replicate 5000 [0])
        (some [0])).guardTripped = true := by
  rw [onAudioProcess]
  have hcond : ¬ ((leftoverEmpty (some [(0 : ℚ)]) &&
      (List.replicate 5000 ([0] : List ℚ)).isEmpty) = true) := by
    rw [show leftoverEmpty (some [(0 : ℚ)]) = false from rfl]
    simp
  rw [if_neg hcond,
    show ((32000000 : ℕ) : ℚ) / ((32 : ℕ) : ℚ) = 1000000 by norm_num]
  exact fillLoop_trips 5000 5000 [0] _ 0 (by norm_num) (by simp)
    (by norm_num) le_rfl

/-! ### The capture downsampler -/

theorem roundDiv_mono (a b c : ℕ) (h : a ≤ b) : roundDiv a c ≤ roundDiv b c :=
  Nat.div_le_div_right (by omega)

theorem dsBoundary_zero (sr tr : ℕ) : dsBoundary sr tr 0 = 0 := by
  rw [dsBoundary, roundDiv]
  cases tr with
  | zero => rw [Nat.mul_zero, Nat.div_zero]
  | succ t => exact Nat.div_eq_of_lt (by omega)

theorem dsBoundary_mono (sr tr j k : ℕ) (h : j ≤ k) :
    dsBoundary sr tr j ≤ dsBoundary sr tr k :=
  roundDiv_mono _ _ _ (Nat.mul_le_mul_right _ h)

theorem dsGo_eq_spans (b : List ℚ) (sr tr : ℕ) :
    ∀ (fuel j off : ℕ),
      dsGo b sr tr fuel j off =
        (dsSpans b.length sr tr fuel j off).map (fun p => spanMean b p.1 p.2)
  | 0, _, _ => rfl
  | fuel + 1, j, off => by
      simp only [dsGo, dsSpans, List.map_cons,
        dsGo_eq_spans b sr tr fuel (j + 1) _]

theorem dsSpans_countP (len sr tr i : ℕ) :
    ∀ (fuel j off : ℕ), off = dsBoundary sr tr j →
      (dsSpans len sr tr fuel j off).countP
          (fun p => decide (p.1 ≤ i ∧ i < p.2)) =
        if dsBoundary sr tr j ≤ i ∧ i < min (dsBoundary sr tr (j + fuel)) len
        then 1 else 0 := by
  intro fuel
  induction fuel with
  | zero =>
      intro j off hoff
      rw [dsSpans, Nat.add_zero]
      simp only [List.countP_nil]
      split_ifs with hc
      · omega
      · rfl
  | succ fuel ih =>
      intro j off hoff
      rw [dsSpans, List.countP_cons]
      have hrec := ih (j + 1) (roundDiv ((j + 1) * sr) tr) rfl
      rw [hrec]
      have hb1 : roundDiv ((j + 1) * sr) tr = dsBoundary sr tr (j + 1) := rfl
      have hmono1 : dsBoundary sr tr j ≤ dsBoundary sr tr (j + 1) :=
        dsBoundary_mono sr tr j (j + 1) (by omega)
      have hmono2 : dsBoundary sr tr (j + 1) ≤ dsBoundary sr tr (j + 1 + fuel) :=
        dsBoundary_mono sr tr (j + 1) (j + 1 + fuel) (by omega)
      have hadd : j + (fuel + 1) = j + 1 + fuel := by omega
      rw [hadd, hoff, hb1]
      simp only [decide_eq_true_eq]
      split_ifs <;> omega

/-- Claim C3 fails as stated: the downsampler's spans need not cover the
whole input.  With a 7-sample buffer at native 48000 Hz and target
16000 Hz (ratio 3), the target length is round(7/3) = 2 and the spans
are [0,3) and [3,6): input index 6 lies in no span, so the final sample
is never averaged into any output. -/
theorem c3_coverage_counterexample :
    16000 ≤ 48000 ∧ 6 < 7 ∧ coveredCount 7 48000 16000 6 = 0 := by
  refine ⟨by norm_num, by norm_num, ?_⟩
  decide

/-- Claim C3, amended: the downsampler's spans are consecutive and
disjoint — every input index below
`min (round(newLength·ratio)) inputLength` is covered exactly once and
every later index exactly zero times; coverage of the full input can
fail only at the tail, when `round(newLength·ratio) < inputLength`
(fewer than ratio/2 + 1 trailing samples are dropped). -/
theorem c3_coverage_amended : ∀ (len sr tr i : ℕ), i < len →
    coveredCount len sr tr i =
      if i < dsBoundary sr tr (dsNewLength len sr tr) then 1 else 0 := by
  intro len sr tr i hi
  rw [coveredCount,
    dsSpans_countP len sr tr i (dsNewLength len sr tr) 0 0
      (dsBoundary_zero sr tr).symm]
  rw [Nat.zero_add, dsBoundary_zero]
  split_ifs <;> omega

theorem c3_coverage_amended_witness :
    2 < 7 ∧ coveredCount 7 48000 16000 2 =
      if 2 < dsBoundary 48000 16000 (dsNewLength 7 48000 16000) then 1 else 0 :=
  ⟨by norm_num, c3_coverage_amended 7 48000 16000 2 (by norm_num)⟩

theorem dsGo_length (b : List ℚ) (sr tr : ℕ) :
    ∀ (fuel j off : ℕ), (dsGo b sr tr fuel j off).length = fuel
  | 0, _, _ => rfl
  | fuel + 1, j, off => by
      simp only [dsGo, List.length_cons,
        dsGo_length b sr tr fuel (j + 1) _]

theorem abs_sum_le_mul (M : ℚ) : ∀ l : List ℚ, (∀ x ∈ l, |x| ≤ M) →
    |l.sum| ≤ (l.length : ℚ) * M
  | [], _ => by simp
  | x :: rest, h => by
      have h1 : |x| ≤ M := h x (List.mem_cons_self x rest)
      have h2 := abs_sum_le_mul M rest
        (fun y hy => h y (List.mem_cons_of_mem x hy))
      simp only [List.sum_cons, List.length_cons]
      calc |x + rest.sum| ≤ |x| + |rest.sum| := abs_add _ _
        _ ≤ M + (rest.length : ℚ) * M := add_le_add h1 h2
        _ = ((rest.length + 1 : ℕ) : ℚ) * M := by push_cast; ring

theorem spanMean_bound (b : List ℚ) (lo hi : ℕ) (M : ℚ) (hM : 0 ≤ M)
    (hb : ∀ x ∈ b, |x| ≤ M) : |spanMean b lo hi| ≤ M := by
  rw [spanMean]
  set s := (b.drop lo).take (hi - lo) with hs
  have hmem : ∀ x ∈ s, |x| ≤ M := by
    intro x hx
    exact hb x (List.drop_subset lo b (List.take_subset _ _ hx))
  split_ifs with h
  · simpa using hM
  · have hlen : 0 < s.length := Nat.pos_of_ne_zero h
    have habs := abs_sum_le_mul M s hmem
    have hlenq : (0 : ℚ) < (s.length : ℚ) := by exact_mod_cast hlen
    rw [abs_div, abs_of_pos hlenq, div_le_iff₀ hlenq]
    calc |s.sum| ≤ (s.length : ℚ) * M := habs
      _ = M * (s.length : ℚ) := by ring

theorem dsGo_bound (b : List ℚ) (sr tr : ℕ) (M : ℚ) (hM : 0 ≤ M)
    (hb : ∀ x ∈ b, |x| ≤ M) :
    ∀ (fuel j off : ℕ) (y : ℚ), y ∈ dsGo b sr tr fuel j off → |y| ≤ M
  | 0, j, off, y, hy => by simp [dsGo] at hy
  | fuel + 1, j, off, y, hy => by
      rw [dsGo] at hy
      rcases List.mem_cons.mp hy with h | h
      · rw [h]; exact spanMean_bound b _ _ M hM hb
      · exact dsGo_bound b sr tr M hM hb fuel (j + 1) _ y h

/-- Claim C10: with native rate above target rate the downsampler
defines every output sample: the result has exactly the computed target
length, only in-bounds input elements are ever read (the span is clipped
by the buffer length), and an empty span yields 0 instead of a division
by zero — so outputs never exceed any bound on the input. -/
theorem c10_downsample_safety :
    ∀ (b : List ℚ) (sr tr : ℕ) (M : ℚ),
      tr < sr → 0 ≤ M → (∀ x ∈ b, |x| ≤ M) →
      (downsampleBuffer b sr tr).length = dsNewLength b.length sr tr
      ∧ ∀ y ∈ downsampleBuffer b sr tr, |y| ≤ M := by
  intro b sr tr M htr hM hb
  have hne : ¬ tr = sr := by omega
  have hlt : ¬ sr < tr := by omega
  rw [downsampleBuffer, if_neg hne, if_neg hlt]
  exact ⟨dsGo_length b sr tr _ 0 0,
    fun y hy => dsGo_bound b sr tr M hM hb _ 0 0 y hy⟩

theorem c10_downsample_safety_witness :
    (16000 < 48000 ∧ (0 : ℚ) ≤ 1
      ∧ ∀ x ∈ [(1 / 2 : ℚ), -1 / 3, 1 / 4], |x| ≤ 1)
    ∧ (downsampleBuffer [(1 / 2 : ℚ), -1 / 3, 1 / 4] 48000 16000).length =
        dsNewLength ([(1 / 2 : ℚ), -1 / 3, 1 / 4].length) 48000 16000
    ∧ ∀ y ∈ downsampleBuffer [(1 / 2 : ℚ), -1 / 3, 1 / 4] 48000 16000,
        |y| ≤ 1 := by
  have hmem : ∀ x ∈ [(1 / 2 : ℚ), -1 / 3, 1 / 4], |x| ≤ 1 := by
    intro x hx
    fin_cases hx <;> rw [abs_le] <;> constructor <;> norm_num
  have h := c10_downsample_safety [(1 / 2 : ℚ), -1 / 3, 1 / 4] 48000 16000 1
    (by norm_num) (by norm_num) hmem
  exact ⟨⟨by norm_num, by norm_num, hmem⟩, h.1, h.2⟩

theorem fillZeros_getD (out : List ℚ) (start i : ℕ) (h : start ≤ i) :
    (fillZeros out start).getD i 0 = 0 := by
  rw [fillZeros]
  have hlen : (out.take start).length ≤ i := by
    simp only [List.length_take]
    omega
  rw [List.getD_eq_getElem?_getD, List.getElem?_append_right hlen,
    ← List.getD_eq_getElem?_getD]
  exact replicate_getD_zero _ _

theorem interpWrite_getD_ge (l : List ℚ) (ratio : ℚ) (start : ℕ)
    (out : List ℚ) : ∀ (k i : ℕ), start + k ≤ i →
    (interpWrite l ratio start out k).getD i 0 = out.getD i 0
  | 0, i, _ => rfl
  | k + 1, i, h => by
      rw [interpWrite, List.getD_eq_getElem?_getD,
        List.getElem?_set_ne (show start + k ≠ i by omega),
        ← List.getD_eq_getElem?_getD]
      exact interpWrite_getD_ge l ratio start out k i (by omega)

theorem refillStep_none (lo : Option (List ℚ)) (q : List (List ℚ))
    (h : refillStep lo q = none) : q = [] ∧ leftoverEmpty lo = true := by
  rw [refillStep.eq_def] at h
  split_ifs at h with he
  cases q with
  | nil => exact ⟨rfl, he⟩
  | cons c rest => exact absurd h (by simp)

theorem fillLoop_silence (ratio : ℚ) (N : ℕ) :
    ∀ (fuel : ℕ) (q : List (List ℚ)) (lo : Option (List ℚ))
      (out : List ℚ) (outIdx : ℕ),
      outIdx ≤ N →
      (∀ i, outIdx ≤ i → out.getD i 0 = 0) →
      (fillLoop ratio N fuel q lo out outIdx).produced ≤ N
      ∧ (∀ i, (fillLoop ratio N fuel q lo out outIdx).produced ≤ i →
          (fillLoop ratio N fuel q lo out outIdx).output.getD i 0 = 0)
      ∧ ((fillLoop ratio N fuel q lo out outIdx).produced = N
         ∨ ((fillLoop ratio N fuel q lo out outIdx).queue = []
            ∧ leftoverEmpty (fillLoop ratio N fuel q lo out outIdx).leftover = true)
         ∨ (fillLoop ratio N fuel q lo out outIdx).guardTripped = true) := by
  intro fuel
  induction fuel with
  | zero =>
      intro q lo out outIdx hle hz
      rw [fillLoop]
      split_ifs with ho
      · exact ⟨hle, hz, Or.inr (Or.inr rfl)⟩
      · refine ⟨hle, hz, Or.inl ?_⟩
        dsimp only
        omega
  | succ fuel ih =>
      intro q lo out outIdx hle hz
      rw [fillLoop]
      split_ifs with ho
      · cases hr : refillStep lo q with
        | none =>
            obtain ⟨hq, hlo⟩ := refillStep_none lo q hr
            exact ⟨hle, fun i hi => fillZeros_getD out outIdx i hi,
              Or.inr (Or.inl ⟨hq, hlo⟩)⟩
        | some p =>
            obtain ⟨l, q'⟩ := p
            dsimp only
            split_ifs with hocg h2
            · cases q' with
              | nil =>
                  exact ⟨hle, fun i hi => fillZeros_getD out outIdx i hi,
                    Or.inr (Or.inl ⟨rfl, rfl⟩)⟩
              | cons next rest => exact ih rest _ out outIdx hle hz
            · have hpc : min (N - outIdx)
                  (⌊(l.length : ℚ) / ratio⌋).toNat ≤ N - outIdx :=
                Nat.min_le_left _ _
              refine ih q' _ _ _ (by omega) ?_
              intro i hi
              rw [interpWrite_getD_ge l ratio outIdx out _ i hi]
              exact hz i (by omega)
            · have hpc : min (N - outIdx)
                  (⌊(l.length : ℚ) / ratio⌋).toNat ≤ N - outIdx :=
                Nat.min_le_left _ _
              refine ih q' _ _ _ (by omega) ?_
              intro i hi
              rw [interpWrite_getD_ge l ratio outIdx out _ i hi]
              exact hz i (by omega)
      · refine ⟨hle, hz, Or.inl ?_⟩
        dsimp only
        omega

/-- Claim C2: every invocation of the playback callback defines exactly
`N` output samples — no more, no fewer — for every queue and leftover
state and any source/device rate pair (integer-ratio or not), and every
portion it cannot produce from input data is silence: all output indices
at or beyond the produced prefix are exactly 0, and that prefix falls
short of `N` only when the callback ran out of data (queue and leftover
both exhausted) or the defensive guard broke the loop. -/
theorem c2_output_exactness :
    ∀ (inputRate ctxRate N : ℕ) (q : List (List ℚ))
      (lo : Option (List ℚ)),
      (onAudioProcess inputRate ctxRate N q lo).output.length = N
      ∧ (onAudioProcess inputRate ctxRate N q lo).produced ≤ N
      ∧ (∀ i, (onAudioProcess inputRate ctxRate N q lo).produced ≤ i →
          (onAudioProcess inputRate ctxRate N q lo).output.getD i 0 = 0)
      ∧ ((onAudioProcess inputRate ctxRate N q lo).produced = N
         ∨ ((onAudioProcess inputRate ctxRate N q lo).queue = []
            ∧ leftoverEmpty (onAudioProcess inputRate ctxRate N q lo).leftover
                = true)
         ∨ (onAudioProcess inputRate ctxRate N q lo).guardTripped = true) := by
  intro inputRate ctxRate N q lo
  rw [onAudioProcess]
  split_ifs with h
  · rw [Bool.and_eq_true] at h
    have hq : q = [] := by simpa using h.2
    exact ⟨List.length_replicate N 0, Nat.zero_le N,
      fun i _ => replicate_getD_zero N i, Or.inr (Or.inl ⟨hq, h.1⟩)⟩
  · have hs := fillLoop_silence ((inputRate : ℚ) / (ctxRate : ℚ)) N 5000 q lo
      (List.replicate N 0) 0 (Nat.zero_le N)
      (fun i _ => replicate_getD_zero N i)
    refine ⟨?_, hs.1, hs.2.1, hs.2.2⟩
    rw [fillLoop_output_length]
    exact List.length_replicate N 0

theorem c2_output_exactness_witness :
    (onAudioProcess 32000 44100 8 ([] : List (List ℚ)) none).produced ≤ 7
    ∧ (onAudioProcess 32000 44100 8 ([] : List (List ℚ)) none).output.getD 7 0
        = 0 := by
  have h := c2_output_exactness 32000 44100 8 [] none
  have hp : (onAudioProcess 32000 44100 8 ([] : List (List ℚ)) none).produced
      = 0 := rfl
  exact ⟨by rw [hp]; omega, h.2.2.1 7 (by rw [hp]; omega)⟩
